import Mathlib

/-!
Shallow embedding of the in-memory limit order matching core
(`src/matching/orderbook.rs` and `src/matching/engine.rs`).

Modelling conventions:
* Rust `f64` quantities and price inputs are embedded as exact rationals
  (`ℚ`); the fill algorithm only subtracts and assigns literal zero, so all
  arithmetic appearing in the spec's scenarios is exact.
* `BTreeMap<Price, Limit>` is embedded as a list of `Limit`s kept sorted by
  strictly increasing price; each stored `Limit` carries its own key as its
  `price` field (in `OrderBook::add` the key is always `Price::new(price)`
  and the freshly inserted value is `Limit::new(price)`, so key and field
  agree). Iterating a `BTreeMap` yields ascending key order, so `bid_limits`'
  descending sort is the reversal of the stored order.
* Mutation through `&mut` references is embedded as explicit state passing:
  functions return the updated values.
-/

namespace OrderbookModel

/-- `OrderType` from orderbook.rs. -/
inductive OrderType where
  | Bid
  | Ask
deriving DecidableEq

/-- `Price` from orderbook.rs: fixed-point value `integral + fractional/scalar`. -/
structure Price where
  integral : Nat
  fractional : Nat
  scalar : Nat
deriving DecidableEq

/-- `Ord for Price`: lexicographic on `(integral, fractional)`, ignoring `scalar`. -/
def Price.cmp (a b : Price) : Ordering :=
  if a.integral < b.integral then Ordering.lt
  else if b.integral < a.integral then Ordering.gt
  else if a.fractional < b.fractional then Ordering.lt
  else if b.fractional < a.fractional then Ordering.gt
  else Ordering.eq

/-- `Price::new`: truncating fixed-point conversion with scalar 100000.
`price as u64` and `(price % 1.0) * scalar as u64` truncate toward zero,
which for the non-negative inputs of this model is the floor. -/
def Price.new (price : ℚ) : Price :=
  { integral := (Rat.floor price).toNat
    fractional := (Rat.floor ((price - Rat.floor price) * 100000)).toNat
    scalar := 100000 }

/-- `Into<f64> for Price`: `integral + fractional / scalar`. -/
def Price.toDecimal (p : Price) : ℚ :=
  (p.integral : ℚ) + (p.fractional : ℚ) / (p.scalar : ℚ)

/-- The comparator-`≤` induced by `Price.cmp`: `cmp` does not answer `Greater`. -/
def priceLe (a b : Price) : Prop := a.cmp b ≠ Ordering.gt

instance : DecidableRel priceLe := fun a b =>
  if h : a.cmp b = Ordering.gt then isFalse (fun hn => hn h) else isTrue h

/-- `Order` from orderbook.rs: remaining size and side. -/
structure Order where
  size : ℚ
  order_type : OrderType
deriving DecidableEq

/-- `Order::new`. -/
def Order.new (order_type : OrderType) (size : ℚ) : Order :=
  { size := size, order_type := order_type }

/-- `Order::is_filled`: exact equality test against zero. -/
def Order.is_filled (o : Order) : Prop := o.size = 0

instance (o : Order) : Decidable o.is_filled :=
  inferInstanceAs (Decidable (o.size = 0))

/-- `Limit` from orderbook.rs: one price level and its arrival-order queue. -/
structure Limit where
  price : Price
  orders : List Order
deriving DecidableEq

/-- `Limit::new`. -/
def Limit.new (price : ℚ) : Limit :=
  { price := Price.new price, orders := [] }

/-- `Limit::add`: push to the back of the queue. -/
def Limit.add (l : Limit) (o : Order) : Limit :=
  { l with orders := l.orders ++ [o] }

/-- `Limit::volume`: `iter().map(size).reduce(+).unwrap_or(0.0)`. -/
def Limit.volume (l : Limit) : ℚ :=
  (l.orders.map (fun o => o.size)).sum

/-- The loop of `Limit::fill`, threading the incoming (market) order's
remaining size through the queue front to back.  Per resting order: if
`market.size >= resting.size`, `market.size -= resting.size` and
`resting.size = 0.0`; otherwise `resting.size -= market.size` and
`market.size = 0.0`; afterwards `break` as soon as `market.is_filled()`
(the tests `ms - o.size = 0` below are `is_filled` on the updated incoming
order; in the second branch the incoming size was just set to literal zero,
so the loop always breaks there). -/
def fillLoop (ms : ℚ) : List Order → ℚ × List Order
  | [] => (ms, [])
  | o :: rest =>
    if o.size ≤ ms then
      if ms - o.size = 0 then
        (ms - o.size, { o with size := 0 } :: rest)
      else
        let r := fillLoop (ms - o.size) rest
        (r.1, { o with size := 0 } :: r.2)
    else
      (0, { o with size := o.size - ms } :: rest)

/-- `Limit::fill`: returns the updated limit and the updated incoming order. -/
def Limit.fill (l : Limit) (m : Order) : Limit × Order :=
  let r := fillLoop m.size l.orders
  ({ l with orders := r.2 }, { m with size := r.1 })

/-- `OrderBook` from orderbook.rs: the two `BTreeMap<Price, Limit>` sides,
each embedded as a price-sorted list of Limits. -/
structure OrderBook where
  asks : List Limit
  bids : List Limit
deriving DecidableEq

/-- `OrderBook::new`. -/
def OrderBook.new : OrderBook := { asks := [], bids := [] }

/-- `BTreeMap::entry(Price::new(price)).or_insert(Limit::new(price))` followed
by `limit.add(order)`: find the Limit keyed by `p` (keys compare by
`Price.cmp`), append the order there, or insert a fresh one-order Limit at
the sorted position. -/
def sideAdd (p : Price) (o : Order) : List Limit → List Limit
  | [] => [{ price := p, orders := [o] }]
  | l :: rest =>
    match p.cmp l.price with
    | Ordering.lt => { price := p, orders := [o] } :: l :: rest
    | Ordering.eq => l.add o :: rest
    | Ordering.gt => l :: sideAdd p o rest

/-- `OrderBook::add`: route by side, look up or lazily create the Limit at
`Price::new(price)`, append the order. -/
def OrderBook.add (b : OrderBook) (o : Order) (price : ℚ) : OrderBook :=
  match o.order_type with
  | OrderType.Ask => { b with asks := sideAdd (Price.new price) o b.asks }
  | OrderType.Bid => { b with bids := sideAdd (Price.new price) o b.bids }

/-- The sort relation of `ask_limits`' `sort_by(|a, b| a.price.cmp(&b.price))`. -/
def limAsc (a b : Limit) : Prop := priceLe a.price b.price

/-- The sort relation of `bid_limits`' `sort_by(|a, b| b.price.cmp(&a.price))`. -/
def limDesc (a b : Limit) : Prop := priceLe b.price a.price

instance : DecidableRel limAsc := fun a b =>
  inferInstanceAs (Decidable (priceLe a.price b.price))

instance : DecidableRel limDesc := fun a b =>
  inferInstanceAs (Decidable (priceLe b.price a.price))

/-- `OrderBook::ask_limits`: the ask-side Limits sorted by ascending price. -/
def OrderBook.ask_limits (b : OrderBook) : List Limit :=
  List.insertionSort limAsc b.asks

/-- `OrderBook::bid_limits`: the bid-side Limits sorted by descending price. -/
def OrderBook.bid_limits (b : OrderBook) : List Limit :=
  List.insertionSort limDesc b.bids

/-- The loop of `OrderBook::place_market_order`: `fill` against every Limit of
the chosen side in the order given (no break at this level: once the incoming
order is filled, each later `fill` call leaves its Limit's orders unchanged in
value). -/
def walkLimits (ms : ℚ) : List Limit → ℚ × List Limit
  | [] => (ms, [])
  | l :: rest =>
    let r1 := fillLoop ms l.orders
    let r2 := walkLimits r1.1 rest
    (r2.1, { l with orders := r1.2 } :: r2.2)

/-- `OrderBook::place_market_order`: an incoming ask walks `bid_limits()`
(descending price, the reversal of the stored ascending order), an incoming
bid walks `ask_limits()` (ascending price, the stored order); the fills write
back through the `&mut` references into the map, modelled by reversing back. -/
def OrderBook.place_market_order (b : OrderBook) (o : Order) : Order × OrderBook :=
  match o.order_type with
  | OrderType.Ask =>
    let r := walkLimits o.size b.bids.reverse
    ({ o with size := r.1 }, { b with bids := r.2.reverse })
  | OrderType.Bid =>
    let r := walkLimits o.size b.asks
    ({ o with size := r.1 }, { b with asks := r.2 })

/-- Modelled from the spec: `OrderBook::spread` is described by the spec
(§4.4, §6, Scenario E) but absent from the sources under src/.  It is the
best (lowest) ask price minus the best (highest) bid price as decimals, and
no value when either side has no Limits. -/
def OrderBook.spread (b : OrderBook) : Option ℚ :=
  match b.ask_limits, b.bid_limits with
  | a :: _, c :: _ => some (a.price.toDecimal - c.price.toDecimal)
  | _, _ => none

/-- `TradingPair` from orderbook.rs. -/
structure TradingPair where
  base : String
  quote : String
deriving DecidableEq

/-- `Engine` from engine.rs: `HashMap<TradingPair, OrderBook>` embedded as an
association list with pairwise-distinct keys by construction. -/
structure Engine where
  orderbooks : List (TradingPair × OrderBook)
deriving DecidableEq

/-- `Engine::new`. -/
def Engine.new : Engine := { orderbooks := [] }

/-- `HashMap::get` on the association list. -/
def findBook : List (TradingPair × OrderBook) → TradingPair → Option OrderBook
  | [], _ => none
  | e :: rest, k => if e.1 = k then some e.2 else findBook rest k

/-- In-place mutation through `HashMap::get_mut`: replace the book stored at
key `k` by the result of `OrderBook::add`. -/
def updateBook (k : TradingPair) (o : Order) (price : ℚ) :
    List (TradingPair × OrderBook) → List (TradingPair × OrderBook)
  | [] => []
  | e :: rest =>
    if e.1 = k then (e.1, e.2.add o price) :: rest
    else e :: updateBook k o price rest

/-- `Engine::add_orderbook`: `entry(trading_pair).or_insert(orderbook)` —
insert only if the key is absent. -/
def Engine.add_orderbook (e : Engine) (k : TradingPair) (b : OrderBook) : Engine :=
  match findBook e.orderbooks k with
  | some _ => e
  | none => { orderbooks := e.orderbooks ++ [(k, b)] }

/-- `Engine::place_limit_order`: look the book up; on a hit forward to
`OrderBook::add` and answer `Ok(())`, on a miss answer the error and leave
the registry untouched. -/
def Engine.place_limit_order (e : Engine) (k : TradingPair) (price : ℚ) (o : Order) :
    Except String Unit × Engine :=
  match findBook e.orderbooks k with
  | some _ => (Except.ok (), { orderbooks := updateBook k o price e.orderbooks })
  | none => (Except.error "Orderbook does not exist", e)

/-! ### Helper lemmas -/

theorem ratFloor_eq (q : ℚ) : Rat.floor q = ⌊q⌋ := rfl

theorem price_new_100 : Price.new 100 = ⟨100, 0, 100000⟩ := by
  unfold Price.new
  simp only [ratFloor_eq]
  norm_num
  rfl

theorem price_new_200 : Price.new 200 = ⟨200, 0, 100000⟩ := by
  unfold Price.new
  simp only [ratFloor_eq]
  norm_num
  rfl

theorem price_new_500 : Price.new 500 = ⟨500, 0, 100000⟩ := by
  unfold Price.new
  simp only [ratFloor_eq]
  norm_num
  rfl

theorem price_new_90 : Price.new 90 = ⟨90, 0, 100000⟩ := by
  unfold Price.new
  simp only [ratFloor_eq]
  norm_num
  rfl

theorem priceLe_iff (a b : Price) :
    priceLe a b ↔
      a.integral < b.integral ∨ (a.integral = b.integral ∧ a.fractional ≤ b.fractional) := by
  unfold priceLe Price.cmp
  split_ifs <;> simp_all <;> omega

theorem priceLe_refl (a : Price) : priceLe a a := by
  rw [priceLe_iff]
  omega

theorem fillLoop_conservation : ∀ (orders : List Order) (ms : ℚ),
    (orders.map (fun o => o.size)).sum - ((fillLoop ms orders).2.map (fun o => o.size)).sum
      = ms - (fillLoop ms orders).1
  | [], ms => by simp [fillLoop]
  | o :: rest, ms => by
    by_cases h : o.size ≤ ms
    · by_cases h2 : ms - o.size = 0
      · simp only [fillLoop, if_pos h, if_pos h2, List.map_cons, List.sum_cons]
        ring
      · have ih := fillLoop_conservation rest (ms - o.size)
        simp only [fillLoop, if_pos h, if_neg h2, List.map_cons, List.sum_cons]
        linarith
    · simp only [fillLoop, if_neg h, List.map_cons, List.sum_cons]
      ring

theorem fillLoop_nonneg : ∀ (orders : List Order) (ms : ℚ),
    0 ≤ ms → (∀ o ∈ orders, 0 ≤ o.size) →
    0 ≤ (fillLoop ms orders).1 ∧ ∀ o ∈ (fillLoop ms orders).2, 0 ≤ o.size
  | [], ms, hm, _ => by simpa [fillLoop] using hm
  | o :: rest, ms, hm, ho => by
    have ho1 : 0 ≤ o.size := ho o (List.mem_cons_self o rest)
    have horest : ∀ x ∈ rest, 0 ≤ x.size := fun x hx => ho x (List.mem_cons_of_mem o hx)
    by_cases h : o.size ≤ ms
    · by_cases h2 : ms - o.size = 0
      · simp only [fillLoop, if_pos h, if_pos h2, h2]
        refine ⟨le_refl 0, ?_⟩
        intro x hx
        rcases List.mem_cons.mp hx with hx1 | hx2
        · subst hx1
          exact le_refl 0
        · exact horest x hx2
      · have ih := fillLoop_nonneg rest (ms - o.size) (by linarith) horest
        simp only [fillLoop, if_pos h, if_neg h2]
        refine ⟨ih.1, ?_⟩
        intro x hx
        rcases List.mem_cons.mp hx with hx1 | hx2
        · subst hx1
          exact le_refl 0
        · exact ih.2 x hx2
    · push_neg at h
      simp only [fillLoop, if_neg (not_le.mpr h)]
      refine ⟨le_refl 0, ?_⟩
      intro x hx
      rcases List.mem_cons.mp hx with hx1 | hx2
      · subst hx1
        simp only
        linarith
      · exact horest x hx2

theorem findBook_append_none (l : List (TradingPair × OrderBook)) (k : TradingPair)
    (b : OrderBook) (h : findBook l k = none) :
    findBook (l ++ [(k, b)]) k = some b := by
  induction l with
  | nil => simp [findBook]
  | cons e rest ih =>
    by_cases he : e.1 = k
    · simp [findBook, he] at h
    · simp only [List.cons_append, findBook, if_neg he] at h ⊢
      exact ih h

/-! ### Claim theorems -/

/-- C2: for every call of `Limit::fill` between an incoming order and the
resting orders of a Limit, the total quantity removed from the resting
orders' remaining quantities (as reported by `Limit::volume`) equals the
quantity removed from the incoming order's remaining, exactly. -/
theorem fill_volume_conservation (l : Limit) (m : Order) :
    l.volume - (Limit.fill l m).1.volume = m.size - (Limit.fill l m).2.size := by
  have h := fillLoop_conservation l.orders m.size
  simpa [Limit.fill, Limit.volume] using h

/-- C9: if the incoming order's remaining and every resting order's remaining
are non-negative before `Limit::fill`, every remaining is still non-negative
afterward — the exhausted side of each step is assigned a literal zero, and a
subtraction happens only when the minuend is at least the subtrahend. -/
theorem fill_preserves_nonneg (l : Limit) (m : Order)
    (hm : 0 ≤ m.size) (ho : ∀ o ∈ l.orders, 0 ≤ o.size) :
    0 ≤ (Limit.fill l m).2.size ∧ ∀ o ∈ (Limit.fill l m).1.orders, 0 ≤ o.size := by
  have h := fillLoop_nonneg l.orders m.size hm ho
  simpa [Limit.fill] using h

/-- Witness for C9 at a concrete input. -/
theorem fill_preserves_nonneg_witness :
    0 ≤ (Limit.fill ⟨Price.new 1000, [Order.new OrderType.Bid 50]⟩
        (Order.new OrderType.Ask 99)).2.size ∧
    ∀ o ∈ (Limit.fill ⟨Price.new 1000, [Order.new OrderType.Bid 50]⟩
        (Order.new OrderType.Ask 99)).1.orders, 0 ≤ o.size :=
  fill_preserves_nonneg ⟨Price.new 1000, [Order.new OrderType.Bid 50]⟩
    (Order.new OrderType.Ask 99) (by decide) (by decide)

/-- C10: `OrderBook::add` with an Ask order leaves the bids mapping
unchanged, and with a Bid order leaves the asks mapping unchanged. -/
theorem add_frame : ∀ (b : OrderBook) (q price : ℚ),
    (OrderBook.add b (Order.new OrderType.Ask q) price).bids = b.bids ∧
    (OrderBook.add b (Order.new OrderType.Bid q) price).asks = b.asks := by
  intro b q price
  exact ⟨rfl, rfl⟩

/-- C7: registering an OrderBook a second time under an already-registered
key is a no-op — the first registration wins and the second book is
discarded, so `add_orderbook` is idempotent and never overwrites. -/
theorem add_orderbook_idempotent (e : Engine) (k : TradingPair) (b1 b2 : OrderBook) :
    Engine.add_orderbook (Engine.add_orderbook e k b1) k b2 = Engine.add_orderbook e k b1 := by
  cases h : findBook e.orderbooks k with
  | some b =>
    have h1 : Engine.add_orderbook e k b1 = e := by
      simp [Engine.add_orderbook, h]
    rw [h1]
    simp [Engine.add_orderbook, h]
  | none =>
    have h1 : Engine.add_orderbook e k b1 = { orderbooks := e.orderbooks ++ [(k, b1)] } := by
      simp [Engine.add_orderbook, h]
    rw [h1]
    simp [Engine.add_orderbook, findBook_append_none e.orderbooks k b1 h]

theorem findBook_updateBook (l : List (TradingPair × OrderBook)) (k : TradingPair)
    (o : Order) (price : ℚ) (b : OrderBook) (h : findBook l k = some b) :
    findBook (updateBook k o price l) k = some (b.add o price) := by
  induction l with
  | nil => simp [findBook] at h
  | cons e rest ih =>
    by_cases he : e.1 = k
    · simp only [findBook, if_pos he, Option.some.injEq] at h
      subst h
      simp [updateBook, findBook, he]
    · simp only [findBook, if_neg he] at h
      simp only [updateBook, if_neg he, findBook, if_neg he]
      exact ih h

instance : IsTotal Limit limAsc :=
  ⟨fun a b => by
    unfold limAsc
    rw [priceLe_iff, priceLe_iff]
    omega⟩

instance : IsTrans Limit limAsc :=
  ⟨fun a b c hab hbc => by
    unfold limAsc at hab hbc ⊢
    rw [priceLe_iff] at hab hbc ⊢
    omega⟩

instance : IsTotal Limit limDesc :=
  ⟨fun a b => by
    unfold limDesc
    rw [priceLe_iff, priceLe_iff]
    omega⟩

instance : IsTrans Limit limDesc :=
  ⟨fun a b c hab hbc => by
    unfold limDesc at hab hbc ⊢
    rw [priceLe_iff] at hab hbc ⊢
    omega⟩

/-- C1: `Limit::fill` visits the resting orders from the front of the queue.
At each resting order: when the incoming remaining covers the resting
remaining, the resting remaining becomes exactly zero and the incoming
remaining drops by the resting order's prior remaining (stopping right there
when that leaves the incoming filled, the rest of the queue untouched);
otherwise the resting remaining drops by the incoming remaining and the
incoming remaining becomes exactly zero, stopping with the rest of the queue
untouched; an empty queue leaves both sides unchanged.  Scenario B: two
resting bids of 50 queued A then B, an incoming ask of 99 — A ends at
exactly 0, B ends at 1, strict time priority. -/
theorem fill_front_to_back :
    (∀ (l : Limit) (m : Order), l.orders = [] → Limit.fill l m = (l, m)) ∧
    (∀ (p : Price) (o m : Order) (rest : List Order),
      o.size ≤ m.size → m.size - o.size = 0 →
      Limit.fill ⟨p, o :: rest⟩ m =
        (⟨p, { o with size := 0 } :: rest⟩, { m with size := 0 })) ∧
    (∀ (p : Price) (o m : Order) (rest : List Order),
      o.size ≤ m.size → m.size - o.size ≠ 0 →
      Limit.fill ⟨p, o :: rest⟩ m =
        (⟨p, { o with size := 0 } ::
            (Limit.fill ⟨p, rest⟩ { m with size := m.size - o.size }).1.orders⟩,
         (Limit.fill ⟨p, rest⟩ { m with size := m.size - o.size }).2)) ∧
    (∀ (p : Price) (o m : Order) (rest : List Order),
      m.size < o.size →
      Limit.fill ⟨p, o :: rest⟩ m =
        (⟨p, { o with size := o.size - m.size } :: rest⟩, { m with size := 0 })) ∧
    Limit.fill ⟨Price.new 1000, [Order.new OrderType.Bid 50, Order.new OrderType.Bid 50]⟩
        (Order.new OrderType.Ask 99) =
      (⟨Price.new 1000, [⟨0, OrderType.Bid⟩, ⟨1, OrderType.Bid⟩]⟩, ⟨0, OrderType.Ask⟩) := by
  refine ⟨?_, ?_, ?_, ?_, ?_⟩
  · intro l m h
    obtain ⟨p, os⟩ := l
    obtain ⟨msz, mt⟩ := m
    simp only at h
    subst h
    rfl
  · intro p o m rest h h2
    obtain ⟨msz, mt⟩ := m
    simp only at h h2
    simp [Limit.fill, fillLoop, h, h2]
  · intro p o m rest h h2
    obtain ⟨msz, mt⟩ := m
    simp only at h h2
    simp [Limit.fill, fillLoop, h, h2]
  · intro p o m rest h
    obtain ⟨msz, mt⟩ := m
    simp only at h
    simp [Limit.fill, fillLoop, not_le.mpr h]
  · norm_num [Limit.fill, fillLoop, Order.new]

/-- Witness for C1 at a concrete input (Scenario A: resting bid of 100,
incoming ask of 99, the resting order keeps exactly 1). -/
theorem fill_front_to_back_witness :
    Limit.fill ⟨Price.new 1000, [Order.new OrderType.Bid 100]⟩ (Order.new OrderType.Ask 99) =
      (⟨Price.new 1000, [⟨1, OrderType.Bid⟩]⟩, ⟨0, OrderType.Ask⟩) := by
  have h := fill_front_to_back.2.2.2.1 (Price.new 1000) (Order.new OrderType.Bid 100)
    (Order.new OrderType.Ask 99) [] (by decide)
  rw [h]
  norm_num [Order.new]

/-- C4 evidence: after the `Limit::fill` pass of a resting bid of 1 against an
incoming ask of 1, the fully consumed resting order (remaining exactly zero)
is still in the Limit's queue — the source never purges zero-quantity
orders. -/
theorem fill_leaves_zero_order_in_queue :
    (Limit.fill ⟨Price.new 1000, [Order.new OrderType.Bid 1]⟩
        (Order.new OrderType.Ask 1)).1.orders = [⟨0, OrderType.Bid⟩] := by
  norm_num [Limit.fill, fillLoop, Order.new]

/-- C3: `place_market_order` fills only against the opposing side — an
incoming ask leaves the asks mapping unchanged and an incoming bid leaves the
bids mapping unchanged (so an unfilled remainder is never inserted as a
resting order).  Scenario C: with asks 100.0 = [10, 10], 200.0 = [5],
500.0 = [15], a market bid of 10 is satisfied entirely by the first order at
100.0; the second 100.0 order and the higher-priced limits keep their exact
prior state and no bid is rested. -/
theorem place_market_order_opposing_side :
    (∀ (b : OrderBook) (q : ℚ),
      (OrderBook.place_market_order b (Order.new OrderType.Ask q)).2.asks = b.asks) ∧
    (∀ (b : OrderBook) (q : ℚ),
      (OrderBook.place_market_order b (Order.new OrderType.Bid q)).2.bids = b.bids) ∧
    OrderBook.place_market_order
        ((((OrderBook.new.add (Order.new OrderType.Ask 10) 100).add
            (Order.new OrderType.Ask 5) 200).add
            (Order.new OrderType.Ask 15) 500).add
            (Order.new OrderType.Ask 10) 100)
        (Order.new OrderType.Bid 10) =
      (⟨0, OrderType.Bid⟩,
        { asks := [⟨Price.new 100, [⟨0, OrderType.Ask⟩, ⟨10, OrderType.Ask⟩]⟩,
                   ⟨Price.new 200, [⟨5, OrderType.Ask⟩]⟩,
                   ⟨Price.new 500, [⟨15, OrderType.Ask⟩]⟩],
          bids := [] }) := by
  refine ⟨fun b q => rfl, fun b q => rfl, ?_⟩
  norm_num [OrderBook.new, OrderBook.add, Order.new, Limit.add, sideAdd, Price.cmp,
    price_new_100, price_new_200, price_new_500,
    OrderBook.place_market_order, walkLimits, fillLoop]

/-- C5: for every OrderBook state, `ask_limits` yields the Limits with
non-decreasing prices and `bid_limits` yields them with non-increasing
prices, regardless of how the sides were populated. -/
theorem limits_sorted_by_priority (b : OrderBook) :
    List.Sorted limAsc (OrderBook.ask_limits b) ∧
    List.Sorted limDesc (OrderBook.bid_limits b) :=
  ⟨List.sorted_insertionSort limAsc b.asks, List.sorted_insertionSort limDesc b.bids⟩

/-- C6: `Engine::place_limit_order` on an unregistered instrument fails with
the order-book-not-found error and leaves the registry unchanged (the key is
still absent afterward); on a registered instrument the order is forwarded to
`OrderBook::add` (queued unconditionally, no matching attempted) and the call
answers success. -/
theorem place_limit_order_lookup :
    (∀ (e : Engine) (k : TradingPair) (price : ℚ) (o : Order),
      findBook e.orderbooks k = none →
      Engine.place_limit_order e k price o = (Except.error "Orderbook does not exist", e) ∧
      findBook (Engine.place_limit_order e k price o).2.orderbooks k = none) ∧
    (∀ (e : Engine) (k : TradingPair) (price : ℚ) (o : Order) (b : OrderBook),
      findBook e.orderbooks k = some b →
      (Engine.place_limit_order e k price o).1 = Except.ok () ∧
      findBook (Engine.place_limit_order e k price o).2.orderbooks k
        = some (b.add o price)) := by
  constructor
  · intro e k price o h
    refine ⟨by simp [Engine.place_limit_order, h], ?_⟩
    simp only [Engine.place_limit_order, h]
  · intro e k price o b h
    refine ⟨by simp [Engine.place_limit_order, h], ?_⟩
    simp only [Engine.place_limit_order, h]
    exact findBook_updateBook e.orderbooks k o price b h

/-- Witness for C6 at a concrete input (Scenario D: empty registry). -/
theorem place_limit_order_lookup_witness :
    Engine.place_limit_order Engine.new ⟨"BTC", "USD"⟩ 100 (Order.new OrderType.Bid 100)
      = (Except.error "Orderbook does not exist", Engine.new) :=
  (place_limit_order_lookup.1 Engine.new ⟨"BTC", "USD"⟩ 100
    (Order.new OrderType.Bid 100) rfl).1

/-- C8: `spread()` is no value whenever either side has no Limits, and when
both sides are non-empty it is the decimal of the best ask price minus the
decimal of the best bid price, where the best ask is lowest-priced among all
asks and the best bid is highest-priced among all bids.  Scenario E: best ask
100.0 against best bid 90.0 gives 10.0. -/
theorem spread_spec :
    (∀ b : OrderBook, b.asks = [] → OrderBook.spread b = none) ∧
    (∀ b : OrderBook, b.bids = [] → OrderBook.spread b = none) ∧
    (∀ (b : OrderBook) (a c : Limit) (ta tc : List Limit),
      OrderBook.ask_limits b = a :: ta → OrderBook.bid_limits b = c :: tc →
      OrderBook.spread b = some (a.price.toDecimal - c.price.toDecimal) ∧
      (∀ l ∈ b.asks, priceLe a.price l.price) ∧
      (∀ l ∈ b.bids, priceLe l.price c.price)) ∧
    OrderBook.spread ((OrderBook.new.add (Order.new OrderType.Ask 10) 100).add
        (Order.new OrderType.Bid 10) 90) = some 10 := by
  refine ⟨?_, ?_, ?_, ?_⟩
  · intro b h
    unfold OrderBook.spread
    rw [show OrderBook.ask_limits b = [] from by simp [OrderBook.ask_limits, h]]
  · intro b h
    unfold OrderBook.spread
    rw [show OrderBook.bid_limits b = [] from by simp [OrderBook.bid_limits, h]]
    cases OrderBook.ask_limits b <;> rfl
  · intro b a c ta tc ha hc
    refine ⟨?_, ?_, ?_⟩
    · unfold OrderBook.spread
      rw [ha, hc]
    · intro l hl
      have hs : List.Sorted limAsc (OrderBook.ask_limits b) :=
        List.sorted_insertionSort limAsc b.asks
      rw [ha] at hs
      have hmem : l ∈ OrderBook.ask_limits b := by
        unfold OrderBook.ask_limits
        exact (List.mem_insertionSort limAsc).mpr hl
      rw [ha] at hmem
      rcases List.mem_cons.mp hmem with h1 | h2
      · rw [h1]
        exact priceLe_refl a.price
      · exact (List.sorted_cons.mp hs).1 l h2
    · intro l hl
      have hs : List.Sorted limDesc (OrderBook.bid_limits b) :=
        List.sorted_insertionSort limDesc b.bids
      rw [hc] at hs
      have hmem : l ∈ OrderBook.bid_limits b := by
        unfold OrderBook.bid_limits
        exact (List.mem_insertionSort limDesc).mpr hl
      rw [hc] at hmem
      rcases List.mem_cons.mp hmem with h1 | h2
      · rw [h1]
        exact priceLe_refl c.price
      · exact (List.sorted_cons.mp hs).1 l h2
  · norm_num [OrderBook.new, OrderBook.add, Order.new, Limit.add, sideAdd,
      price_new_100, price_new_90, OrderBook.spread, OrderBook.ask_limits,
      OrderBook.bid_limits, List.insertionSort, List.orderedInsert, Price.toDecimal]

/-- Witness for C8 at a concrete input (a book with no asks and one bid has
no spread). -/
theorem spread_spec_witness :
    OrderBook.spread { asks := [], bids := [Limit.new 90] } = none :=
  spread_spec.1 { asks := [], bids := [Limit.new 90] } rfl

end OrderbookModel
